import Mathlib

/-!
Verification development for the daily-report generator (`report.py`).

The Python source is shallowly embedded: pure fragments become Lean
functions, subprocess and filesystem effects become explicit oracle
parameters, and fragments that can raise become `Except`/`Option` values.
Python's stable `list.sort` is embedded as a stable insertion sort (any two
stable sorts for the same total preorder agree pointwise), `datetime`
values as a record of calendar fields, and library routines used by the
source (`str.strip`, `str.split`, `os.path.normpath`, `os.path.join`,
`datetime.strptime`, `datetime.fromisoformat`) are reimplemented over
character lists following their CPython semantics (restricted to ASCII
digits/whitespace, `/` separators and `±HH:MM` timezone offsets, which is
the territory the program exercises).
-/

/-- Naive local `datetime.datetime`: calendar fields only, no tzinfo. -/
structure DateTime where
  year : Nat
  month : Nat
  day : Nat
  hour : Nat
  minute : Nat
  second : Nat
  micro : Nat
deriving DecidableEq, Repr

/-- Comparison of naive datetimes: Python compares field-lexicographically. -/
def DateTime.le (a b : DateTime) : Prop :=
  a.year < b.year ∨ (a.year = b.year ∧
    (a.month < b.month ∨ (a.month = b.month ∧
      (a.day < b.day ∨ (a.day = b.day ∧
        (a.hour < b.hour ∨ (a.hour = b.hour ∧
          (a.minute < b.minute ∨ (a.minute = b.minute ∧
            (a.second < b.second ∨ (a.second = b.second ∧
              a.micro ≤ b.micro)))))))))))

instance (a b : DateTime) : Decidable (a.le b) := by
  unfold DateTime.le; infer_instance

theorem DateTime.le_refl (a : DateTime) : a.le a := by
  unfold DateTime.le; omega

theorem DateTime.le_total' (a b : DateTime) : a.le b ∨ b.le a := by
  unfold DateTime.le; omega

theorem DateTime.le_trans' {a b c : DateTime} (h1 : a.le b) (h2 : b.le c) : a.le c := by
  unfold DateTime.le at *; omega

/-- The atomic timeline record (`Entry` dataclass). -/
structure Entry where
  when : DateTime
  source : String
  summary : String
deriving DecidableEq, Repr

instance {ε : Type u} {α : Type v} [DecidableEq ε] [DecidableEq α] :
    DecidableEq (Except ε α) := fun x y =>
  match x, y with
  | .ok a, .ok b =>
    if h : a = b then isTrue (by rw [h])
    else isFalse (by intro he; cases he; exact h rfl)
  | .error a, .error b =>
    if h : a = b then isTrue (by rw [h])
    else isFalse (by intro he; cases he; exact h rfl)
  | .ok _, .error _ => isFalse (by intro he; cases he)
  | .error _, .ok _ => isFalse (by intro he; cases he)

/-! ## Generic stable insertion sort

Python's `list.sort` is a stable sort; the output of a stable sort with
respect to a total preorder is uniquely determined by the input, so the
insertion sort below is an exact model of the sorting the program does. -/

/-- Insert `x` before the first element `y` with `le x y`; elements equal
under the preorder that were already in the list stay in front. -/
def insByKey (le : α → α → Bool) (x : α) : List α → List α
  | [] => [x]
  | y :: ys => if le x y then x :: y :: ys else y :: insByKey le x ys

/-- Stable insertion sort. -/
def isortBy (le : α → α → Bool) : List α → List α
  | [] => []
  | x :: xs => insByKey le x (isortBy le xs)

theorem insByKey_perm (le : α → α → Bool) (x : α) (l : List α) :
    (insByKey le x l).Perm (x :: l) := by
  induction l with
  | nil => exact List.Perm.refl _
  | cons y ys ih =>
    unfold insByKey
    split
    · exact List.Perm.refl _
    · exact (List.Perm.cons y ih).trans (List.Perm.swap x y ys)

theorem isortBy_perm (le : α → α → Bool) (l : List α) :
    (isortBy le l).Perm l := by
  induction l with
  | nil => exact List.Perm.refl _
  | cons x xs ih =>
    exact (insByKey_perm le x (isortBy le xs)).trans (List.Perm.cons x ih)

theorem mem_insByKey {le : α → α → Bool} {x z : α} {l : List α} :
    z ∈ insByKey le x l ↔ z = x ∨ z ∈ l := by
  rw [(insByKey_perm le x l).mem_iff, List.mem_cons]

theorem insByKey_pairwise {le : α → α → Bool}
    (htot : ∀ a b, le a b = false → le b a = true)
    (htrans : ∀ a b c, le a b = true → le b c = true → le a c = true)
    (x : α) {l : List α} (h : l.Pairwise (fun a b => le a b = true)) :
    (insByKey le x l).Pairwise (fun a b => le a b = true) := by
  induction l with
  | nil => simp [insByKey]
  | cons y ys ih =>
    rcases h with _ | ⟨hy, hys⟩
    unfold insByKey
    split
    · rename_i hxy
      refine List.Pairwise.cons ?_ (List.Pairwise.cons hy hys)
      intro z hz
      rcases List.mem_cons.mp hz with rfl | hz
      · exact hxy
      · exact htrans x y z hxy (hy z hz)
    · rename_i hxy
      refine List.Pairwise.cons ?_ (ih hys)
      intro z hz
      rcases mem_insByKey.mp hz with rfl | hz
      · exact htot _ _ (by simpa using hxy)
      · exact hy z hz

theorem isortBy_pairwise {le : α → α → Bool}
    (htot : ∀ a b, le a b = false → le b a = true)
    (htrans : ∀ a b c, le a b = true → le b c = true → le a c = true)
    (l : List α) : (isortBy le l).Pairwise (fun a b => le a b = true) := by
  induction l with
  | nil => simp [isortBy]
  | cons x xs ih => exact insByKey_pairwise htot htrans x ih

theorem filter_insByKey {le : α → α → Bool} (p : α → Bool)
    (hcomp : ∀ a b, p a = true → p b = true → le a b = true)
    (x : α) (l : List α) :
    (insByKey le x l).filter p =
      if p x then x :: l.filter p else l.filter p := by
  induction l with
  | nil =>
    simp only [insByKey, List.filter]
    cases hpx : p x <;> simp
  | cons y ys ih =>
    unfold insByKey
    by_cases hxy : le x y = true
    · simp only [if_pos hxy, List.filter]
      cases hpx : p x <;> simp
    · simp only [if_neg hxy, List.filter]
      cases hpy : p y
      · simpa using ih
      · cases hpx : p x
        · simpa [hpx] using ih
        · exact absurd (hcomp x y hpx hpy) hxy

theorem isortBy_filter {le : α → α → Bool} (p : α → Bool)
    (hcomp : ∀ a b, p a = true → p b = true → le a b = true)
    (l : List α) : (isortBy le l).filter p = l.filter p := by
  induction l with
  | nil => rfl
  | cons x xs ih =>
    show (insByKey le x (isortBy le xs)).filter p = _
    rw [filter_insByKey p hcomp, ih]
    simp only [List.filter]
    cases hpx : p x <;> simp

theorem isortBy_eq_of_pairwise {le : α → α → Bool} {l : List α}
    (h : l.Pairwise (fun a b => le a b = true)) : isortBy le l = l := by
  induction l with
  | nil => rfl
  | cons x xs ih =>
    rcases h with _ | ⟨hx, hxs⟩
    show insByKey le x (isortBy le xs) = x :: xs
    rw [ih hxs]
    cases xs with
    | nil => rfl
    | cons y ys => simp [insByKey, hx y (List.mem_cons_self y ys)]

theorem isortBy_nodup {le : α → α → Bool} {l : List α} (h : l.Nodup) :
    (isortBy le l).Nodup := ((isortBy_perm le l).nodup_iff).mpr h

/-! ## Timeline Merger (`main`, lines 379-407)

`main` accumulates entries from the notes parser, the manual `--add`
builder and the per-repository collectors into `all_entries` (a plain
concatenation) and then runs `all_entries.sort(key=lambda e: e.when)`. -/

/-- `entryBle e f` is `e.when <= f.when`, the sort key comparison. -/
def entryBle (e f : Entry) : Bool := decide (e.when.le f.when)

/-- The merge-and-order step: concatenate all collections, stably sort
ascending by `when`. -/
def mergeTimeline (cols : List (List Entry)) : List Entry :=
  isortBy entryBle cols.flatten

theorem entryBle_total (a b : Entry) : entryBle a b = false → entryBle b a = true := by
  unfold entryBle
  rcases DateTime.le_total' a.when b.when with h | h <;> simp [h]

theorem entryBle_trans (a b c : Entry) :
    entryBle a b = true → entryBle b c = true → entryBle a c = true := by
  unfold entryBle
  simp only [decide_eq_true_eq]
  exact DateTime.le_trans'

/-! ## Character and string utilities (CPython `str` methods) -/

/-- Python whitespace for `str.strip` / `\s` (ASCII fragment). -/
def isPySpace (c : Char) : Bool :=
  c = ' ' ∨ c = '\t' ∨ c = '\n' ∨ c = '\x0d' ∨ c = '\x0b' ∨ c = '\x0c'

/-- `str.strip()` on a character list. -/
def pyStripL (cs : List Char) : List Char :=
  ((cs.dropWhile isPySpace).reverse.dropWhile isPySpace).reverse

/-- `str.strip()`. -/
def pyStripS (s : String) : String := ⟨pyStripL s.toList⟩

/-- `str.split(sep)` for a single-character separator: splits at every
occurrence, keeping empty pieces (CPython semantics for explicit `sep`). -/
def pySplit (sep : Char) : List Char → List (List Char)
  | [] => [[]]
  | c :: t =>
    let r := pySplit sep t
    if c = sep then [] :: r else (c :: r.headD []) :: r.tail

/-- Output lines as the program consumes them (split on newline; the
program strips or skips blank pieces, so this matches `splitlines`
and text-mode file iteration on the inputs it meets). -/
def splitLinesS (s : String) : List String :=
  (pySplit '\n' s.toList).map fun l => ⟨l⟩

/-- `os.path.basename`: the part after the last slash. -/
def baseName (s : String) : String :=
  ⟨(s.toList.reverse.takeWhile (fun c => ¬ (c = '/'))).reverse⟩

/-- Lexicographic `str <=` by code points (Python string comparison). -/
def lexLe : List Char → List Char → Bool
  | [], _ => true
  | _ :: _, [] => false
  | a :: as, b :: bs =>
    if a.toNat < b.toNat then true
    else if b.toNat < a.toNat then false
    else lexLe as bs

/-- `str <=` on strings. -/
def strLe (a b : String) : Bool := lexLe a.toList b.toList

theorem lexLe_total (a b : List Char) : lexLe a b = false → lexLe b a = true := by
  induction a generalizing b with
  | nil => intro h; simp [lexLe] at h
  | cons x xs ih =>
    cases b with
    | nil => intro _; rfl
    | cons y ys =>
      simp only [lexLe]
      intro h
      split at h
      · exact absurd h (by simp)
      · rename_i h1
        split at h
        · rename_i h2
          rw [if_pos h2]
        · rename_i h2
          rw [if_neg h2, if_neg h1]
          exact ih ys h

theorem lexLe_trans (a b c : List Char) :
    lexLe a b = true → lexLe b c = true → lexLe a c = true := by
  induction a generalizing b c with
  | nil => intro _ _; rfl
  | cons x xs ih =>
    cases b with
    | nil => intro h; simp [lexLe] at h
    | cons y ys =>
      cases c with
      | nil => intro _ h; simp [lexLe] at h
      | cons z zs =>
        simp only [lexLe]
        intro h1 h2
        split at h1
        · rename_i hxy
          split at h2
          · rename_i hyz
            rw [if_pos (Nat.lt_trans hxy hyz)]
          · rename_i hyz
            split at h2
            · exact absurd h2 (by simp)
            · rename_i hzy
              rw [if_pos (by omega : x.toNat < z.toNat)]
        · rename_i hxy
          split at h1
          · exact absurd h1 (by simp)
          · rename_i hyx
            split at h2
            · rename_i hyz
              rw [if_pos (by omega : x.toNat < z.toNat)]
            · rename_i hyz
              split at h2
              · exact absurd h2 (by simp)
              · rename_i hzy
                rw [if_neg (by omega : ¬ x.toNat < z.toNat),
                    if_neg (by omega : ¬ z.toNat < x.toNat)]
                exact ih ys zs h1 h2

theorem strLe_total (a b : String) : strLe a b = false → strLe b a = true :=
  lexLe_total a.toList b.toList

theorem strLe_trans (a b c : String) :
    strLe a b = true → strLe b c = true → strLe a c = true :=
  lexLe_trans a.toList b.toList c.toList

/-- C1: the timeline merger outputs exactly the concatenation of all
collected entry lists, stably sorted ascending by `when`: the output is a
permutation of the concatenation (no entry dropped, no cross-source
deduplication), it is pairwise non-decreasing on `when`, and for every
timestamp the subsequence of entries carrying that timestamp equals the
corresponding subsequence of the concatenation (stability: entries with
equal `when` keep their original collection order). -/
theorem timeline_merger_stable_sorted (cols : List (List Entry)) :
    (mergeTimeline cols).Perm cols.flatten
    ∧ (mergeTimeline cols).Pairwise (fun a b => a.when.le b.when)
    ∧ ∀ k : DateTime,
        (mergeTimeline cols).filter (fun e => decide (e.when = k)) =
          cols.flatten.filter (fun e => decide (e.when = k)) := by
  refine ⟨isortBy_perm _ _, ?_, ?_⟩
  · have h := isortBy_pairwise entryBle_total entryBle_trans cols.flatten
    exact h.imp fun hab => by simpa [entryBle] using hab
  · intro k
    apply isortBy_filter
    intro a b ha hb
    have ha' : a.when = k := by simpa using ha
    have hb' : b.when = k := by simpa using hb
    unfold entryBle
    rw [ha', hb']
    simp [DateTime.le_refl]

/-! ## Calendar arithmetic (naive `datetime` + `timedelta`) -/

def isLeap (y : Nat) : Bool := (y % 4 = 0 ∧ y % 100 ≠ 0) ∨ y % 400 = 0

def daysInMonth (y m : Nat) : Nat :=
  if m = 2 then (if isLeap y then 29 else 28)
  else if m = 4 ∨ m = 6 ∨ m = 9 ∨ m = 11 then 30
  else 31

def dateNext : Nat × Nat × Nat → Nat × Nat × Nat
  | (y, m, d) =>
    if d < daysInMonth y m then (y, m, d + 1)
    else if m < 12 then (y, m + 1, 1)
    else (y + 1, 1, 1)

def datePrev : Nat × Nat × Nat → Nat × Nat × Nat
  | (y, m, d) =>
    if 1 < d then (y, m, d - 1)
    else if 1 < m then (y, m - 1, daysInMonth y (m - 1))
    else (y - 1, 12, 31)

def advDays (dte : Nat × Nat × Nat) : Nat → Nat × Nat × Nat
  | 0 => dte
  | n + 1 => advDays (dateNext dte) n

def retDays (dte : Nat × Nat × Nat) : Nat → Nat × Nat × Nat
  | 0 => dte
  | n + 1 => retDays (datePrev dte) n

/-- `t + timedelta(seconds=n)` on a naive datetime (proleptic Gregorian,
like Python's). -/
def addSecs (t : DateTime) (n : Nat) : DateTime :=
  let s := t.hour * 3600 + t.minute * 60 + t.second + n
  let dte := advDays (t.year, t.month, t.day) (s / 86400)
  ⟨dte.1, dte.2.1, dte.2.2, s % 86400 / 3600, s % 86400 / 60 % 60, s % 60, t.micro⟩

/-- `t + timedelta(minutes=delta)` with a possibly negative delta,
used for timezone conversion.  Seconds and microseconds are unchanged. -/
def addMinsI (t : DateTime) (delta : Int) : DateTime :=
  let tot : Int := (t.hour * 60 + t.minute : Nat) + delta
  let q := tot.ediv 1440
  let r := (tot.emod 1440).toNat
  let dte :=
    if 0 ≤ q then advDays (t.year, t.month, t.day) q.toNat
    else retDays (t.year, t.month, t.day) (-q).toNat
  ⟨dte.1, dte.2.1, dte.2.2, r / 60, r % 60, t.second, t.micro⟩

/-! ## `datetime.strptime` with the two formats the program uses

CPython's `_strptime` compiles a format into a regex: `%Y` matches exactly
four digits, `%m` matches `1[0-2]|0[1-9]|[1-9]`, `%d` matches
`3[01]|[12]\d|0[1-9]|[1-9]`, `%H` matches `2[0-3]|[0-1]\d|\d`, `%M`
matches `[0-5]\d|\d`, `%S` matches `6[0-1]|[0-5]\d|\d`, and a whitespace
run in the format matches `\s+`.  Alternatives are tried left to right
with backtracking; after a full match the `datetime` constructor still
validates the day against the month (and rejects leap seconds), raising
`ValueError` exactly like a format mismatch. -/

def digitVal (c : Char) : Nat := c.toNat - 48

/-- All ways the `%m` regex fragment can match a prefix, in regex order. -/
def monthAlts : List Char → List (Nat × List Char)
  | a :: b :: rest =>
    (if a = '1' ∧ (b = '0' ∨ b = '1' ∨ b = '2') then [(10 + digitVal b, rest)] else [])
    ++ (if a = '0' ∧ b.isDigit ∧ b ≠ '0' then [(digitVal b, rest)] else [])
    ++ (if a.isDigit ∧ a ≠ '0' then [(digitVal a, b :: rest)] else [])
  | [a] => if a.isDigit ∧ a ≠ '0' then [(digitVal a, [])] else []
  | [] => []

/-- All ways the `%d` regex fragment can match a prefix, in regex order. -/
def dayAlts : List Char → List (Nat × List Char)
  | a :: b :: rest =>
    (if a = '3' ∧ (b = '0' ∨ b = '1') then [(30 + digitVal b, rest)] else [])
    ++ (if (a = '1' ∨ a = '2') ∧ b.isDigit then [(10 * digitVal a + digitVal b, rest)] else [])
    ++ (if a = '0' ∧ b.isDigit ∧ b ≠ '0' then [(digitVal b, rest)] else [])
    ++ (if a.isDigit ∧ a ≠ '0' then [(digitVal a, b :: rest)] else [])
  | [a] => if a.isDigit ∧ a ≠ '0' then [(digitVal a, [])] else []
  | [] => []

/-- All ways the `%H` regex fragment can match a prefix, in regex order. -/
def hourAlts : List Char → List (Nat × List Char)
  | a :: b :: rest =>
    (if a = '2' ∧ (b = '0' ∨ b = '1' ∨ b = '2' ∨ b = '3') then [(20 + digitVal b, rest)] else [])
    ++ (if (a = '0' ∨ a = '1') ∧ b.isDigit then [(10 * digitVal a + digitVal b, rest)] else [])
    ++ (if a.isDigit then [(digitVal a, b :: rest)] else [])
  | [a] => if a.isDigit then [(digitVal a, [])] else []
  | [] => []

/-- All ways the `%M` regex fragment can match a prefix, in regex order. -/
def minuteAlts : List Char → List (Nat × List Char)
  | a :: b :: rest =>
    (if a.isDigit ∧ a.toNat ≤ 53 ∧ b.isDigit then [(10 * digitVal a + digitVal b, rest)] else [])
    ++ (if a.isDigit then [(digitVal a, b :: rest)] else [])
  | [a] => if a.isDigit then [(digitVal a, [])] else []
  | [] => []

/-- All ways the `%S` regex fragment can match a prefix, in regex order. -/
def secondAlts : List Char → List (Nat × List Char)
  | a :: b :: rest =>
    (if a = '6' ∧ (b = '0' ∨ b = '1') then [(60 + digitVal b, rest)] else [])
    ++ (if a.isDigit ∧ a.toNat ≤ 53 ∧ b.isDigit then [(10 * digitVal a + digitVal b, rest)] else [])
    ++ (if a.isDigit then [(digitVal a, b :: rest)] else [])
  | [a] => if a.isDigit then [(digitVal a, [])] else []
  | [] => []

/-- First alternative for which the continuation succeeds (regex
backtracking over an ordered alternative list). -/
def firstSome : List α → (α → Option β) → Option β
  | [], _ => none
  | x :: xs, f =>
    match f x with
    | some r => some r
    | none => firstSome xs f

/-- Exactly four digits (`%Y`). -/
def parseY4 : List Char → Option (Nat × List Char)
  | a :: b :: c :: d :: rest =>
    if a.isDigit ∧ b.isDigit ∧ c.isDigit ∧ d.isDigit then
      some (digitVal a * 1000 + digitVal b * 100 + digitVal c * 10 + digitVal d, rest)
    else none
  | _ => none

/-- `datetime.strptime(s, "%Y-%m-%d")`: `none` models the `ValueError`
(format mismatch, trailing junk, or an invalid calendar date such as
February 31 or year 0, all raised as the same exception). -/
def strptimeYmd (s : String) : Option DateTime :=
  match parseY4 s.toList with
  | none => none
  | some (y, rest) =>
    match rest with
    | '-' :: r2 =>
      firstSome (monthAlts r2) fun md =>
        match md.2 with
        | '-' :: r4 =>
          firstSome (dayAlts r4) fun dd =>
            if dd.2 = [] ∧ 1 ≤ y ∧ dd.1 ≤ daysInMonth y md.1 then
              some ⟨y, md.1, dd.1, 0, 0, 0, 0⟩
            else none
        | _ => none
    | _ => none

/-- `datetime.strptime(s, "%Y-%m-%d %H:%M:%S")` (the blank matches a
whitespace run, as CPython's `_strptime` rewrites it to `\s+`). -/
def strptimeYmdHms (s : String) : Option DateTime :=
  match parseY4 s.toList with
  | none => none
  | some (y, rest) =>
    match rest with
    | '-' :: r2 =>
      firstSome (monthAlts r2) fun md =>
        match md.2 with
        | '-' :: r4 =>
          firstSome (dayAlts r4) fun dd =>
            match dd.2 with
            | w :: r5 =>
              if isPySpace w then
                let r6 := r5.dropWhile isPySpace
                firstSome (hourAlts r6) fun hh =>
                  match hh.2 with
                  | ':' :: r8 =>
                    firstSome (minuteAlts r8) fun mi =>
                      match mi.2 with
                      | ':' :: r10 =>
                        firstSome (secondAlts r10) fun ss =>
                          if ss.2 = [] ∧ 1 ≤ y ∧ dd.1 ≤ daysInMonth y md.1 ∧ ss.1 ≤ 59 then
                            some ⟨y, md.1, dd.1, hh.1, mi.1, ss.1, 0⟩
                          else none
                      | _ => none
                  | _ => none
              else none
            | [] => none
        | _ => none
    | _ => none

/-! ## `datetime.fromisoformat` (pre-3.11 CPython)

`fromisoformat` takes the first ten characters as `YYYY-MM-DD` (strict
two-digit month and day), ignores the character at index 10 entirely, and
parses the rest as `HH[:MM[:SS[.fff or .ffffff]]]` followed by an optional
UTC offset.  The offset is located by searching the time part for `-`
first, then `+`; the model supports the five-character `±HH:MM` form (the
rare `±HH:MM:SS[.ffffff]` forms are treated as parse failures).  The
`datetime`/`timezone` constructors validate the calendar date, the time of
day, and that the offset is strictly less than 24 hours; `digits only` is
assumed where CPython's `int()` would also tolerate signs or whitespace. -/

/-- Exactly two digits. -/
def parse2 : List Char → Option (Nat × List Char)
  | a :: b :: rest =>
    if a.isDigit ∧ b.isDigit then some (10 * digitVal a + digitVal b, rest) else none
  | _ => none

/-- `_parse_hh_mm_ss_ff`: `HH[:MM[:SS[.fff|.ffffff]]]`, whole string. -/
def parseHmsF (cs : List Char) : Option (Nat × Nat × Nat × Nat) :=
  match parse2 cs with
  | none => none
  | some (hh, r1) =>
    match r1 with
    | [] => some (hh, 0, 0, 0)
    | ':' :: r2 =>
      match parse2 r2 with
      | none => none
      | some (mi, r3) =>
        match r3 with
        | [] => some (hh, mi, 0, 0)
        | ':' :: r4 =>
          match parse2 r4 with
          | none => none
          | some (ss, r5) =>
            match r5 with
            | [] => some (hh, mi, ss, 0)
            | '.' :: r6 =>
              if r6.length = 3 ∧ r6.all Char.isDigit then
                some (hh, mi, ss, 1000 * r6.foldl (fun acc c => 10 * acc + digitVal c) 0)
              else if r6.length = 6 ∧ r6.all Char.isDigit then
                some (hh, mi, ss, r6.foldl (fun acc c => 10 * acc + digitVal c) 0)
              else none
            | _ => none
        | _ => none
    | _ => none

/-- Split the time part at the timezone sign the way CPython locates it:
the first `-` if any, else the first `+`; returns (time text, signed
offset text without the sign, sign).  `none` when no offset. -/
def splitTz (cs : List Char) : Option (List Char × List Char × Bool) :=
  match cs.findIdx? (fun c => c = '-') with
  | some i => some (cs.take i, cs.drop (i + 1), true)
  | none =>
    match cs.findIdx? (fun c => c = '+') with
    | some i => some (cs.take i, cs.drop (i + 1), false)
    | none => none

/-- `_parse_isoformat_time` on the part after the separator. -/
def parseIsoTime (cs : List Char) : Option (Nat × Nat × Nat × Nat × Option Int) :=
  match splitTz cs with
  | none =>
    match parseHmsF cs with
    | none => none
    | some (hh, mi, ss, us) => some (hh, mi, ss, us, none)
  | some (timePart, tzPart, neg) =>
    match parseHmsF timePart with
    | none => none
    | some (hh, mi, ss, us) =>
      match tzPart with
      | [h1, h2, ':', m1, m2] =>
        if h1.isDigit ∧ h2.isDigit ∧ m1.isDigit ∧ m2.isDigit then
          let off : Int :=
            ((10 * digitVal h1 + digitVal h2) * 60 + (10 * digitVal m1 + digitVal m2) : Nat)
          some (hh, mi, ss, us, some (if neg then -off else off))
        else none
      | _ => none

/-- `datetime.fromisoformat`: parsed naive fields plus the UTC offset in
minutes when one was given. -/
def fromIso (s : String) : Option (DateTime × Option Int) :=
  match s.toList with
  | y1 :: y2 :: y3 :: y4 :: '-' :: m1 :: m2 :: '-' :: d1 :: d2 :: rest =>
    if y1.isDigit ∧ y2.isDigit ∧ y3.isDigit ∧ y4.isDigit ∧
        m1.isDigit ∧ m2.isDigit ∧ d1.isDigit ∧ d2.isDigit then
      let y := digitVal y1 * 1000 + digitVal y2 * 100 + digitVal y3 * 10 + digitVal y4
      let m := 10 * digitVal m1 + digitVal m2
      let d := 10 * digitVal d1 + digitVal d2
      let dateOk := 1 ≤ y ∧ 1 ≤ m ∧ m ≤ 12 ∧ 1 ≤ d ∧ d ≤ daysInMonth y m
      match rest with
      | [] => if dateOk then some (⟨y, m, d, 0, 0, 0, 0⟩, none) else none
      | [_] => if dateOk then some (⟨y, m, d, 0, 0, 0, 0⟩, none) else none
      | _ :: t1 :: trest =>
        match parseIsoTime (t1 :: trest) with
        | none => none
        | some (hh, mi, ss, us, off) =>
          if dateOk ∧ hh ≤ 23 ∧ mi ≤ 59 ∧ ss ≤ 59 ∧
              (∀ o, off = some o → -1440 < o ∧ o < 1440) then
            some (⟨y, m, d, hh, mi, ss, us⟩, off)
          else none
    else none
  | _ => none

/-- `ad.replace("Z", "+00:00")`: every occurrence, like `str.replace`. -/
def replaceZ (s : String) : String :=
  ⟨s.toList.foldr
    (fun c acc => if c = 'Z' then '+' :: '0' :: '0' :: ':' :: '0' :: '0' :: acc else c :: acc)
    []⟩

/-- `.astimezone().replace(tzinfo=None)` under a fixed local UTC offset of
`localOff` minutes: an aware parse result is converted to local wall time,
a naive one is kept as-is (astimezone assumes it already is local time). -/
def localize (localOff : Int) (p : DateTime × Option Int) : DateTime :=
  match p.2 with
  | none => p.1
  | some off => addMinsI p.1 (localOff - off)

/-! ## POSIX path handling (`os.path.normpath` / `join` / `abspath`)
and the Path Deduplicator (`_dedup_paths`, lines 297-310) -/

/-- One step of `posixpath.normpath`'s component loop. -/
def normStep (initSl : Bool) (acc : List (List Char)) (comp : List Char) : List (List Char) :=
  if comp = [] ∨ comp = ['.'] then acc
  else if comp ≠ ['.', '.'] ∨ (initSl = false ∧ acc = []) ∨
      (acc ≠ [] ∧ acc.getLast? = some ['.', '.']) then
    acc ++ [comp]
  else if acc ≠ [] then acc.dropLast
  else acc

/-- Number of leading slashes `posixpath.normpath` preserves: 2 for
exactly two, else 1 for at least one, else 0. -/
def leadSlashes (cs : List Char) : Nat :=
  if ¬ (cs.headD ' ' = '/') then 0
  else if (cs.drop 1).headD ' ' = '/' ∧ ¬ ((cs.drop 2).headD ' ' = '/') then 2
  else 1

/-- `'/'.join(comps)`. -/
def joinSl : List (List Char) → List Char
  | [] => []
  | [p] => p
  | p :: ps => p ++ '/' :: joinSl ps

/-- The `new_comps` list `posixpath.normpath` builds. -/
def normComps (cs : List Char) : List (List Char) :=
  (pySplit '/' cs).foldl (normStep (decide (0 < leadSlashes cs))) []

/-- `posixpath.normpath` on a character list. -/
def normPathL (cs : List Char) : List Char :=
  if cs = [] then ['.']
  else if List.replicate (leadSlashes cs) '/' ++ joinSl (normComps cs) = [] then ['.']
  else List.replicate (leadSlashes cs) '/' ++ joinSl (normComps cs)

/-- `posixpath.join(a, b)` for two arguments. -/
def joinL (a b : List Char) : List Char :=
  if b.headD ' ' = '/' then b
  else if a = [] ∨ a.getLast? = some '/' then a ++ b
  else a ++ '/' :: b

/-- `os.path.abspath(p)` with the process working directory `cwd`
passed explicitly (the OS guarantees `cwd` is absolute). -/
def abspathL (cwd p : List Char) : List Char :=
  if p.headD ' ' = '/' then normPathL p else normPathL (joinL cwd p)

/-- `os.path.abspath` on strings. -/
def abspath (cwd p : String) : String := ⟨abspathL cwd.toList p.toList⟩

/-- `os.path.join(a, b)` on strings. -/
def pyJoin2 (a b : String) : String := ⟨joinL a.toList b.toList⟩

/-- `p != q and p.startswith(q + os.sep)` — `p` is a strict descendant
path of `q` (the `p != q` half is kept separate in the statements). -/
def descStartsWith (p q : String) : Bool :=
  List.isPrefixOf (q.toList ++ ['/']) p.toList

/-- The seen-set loop of `_dedup_paths`: absolutize each path, keep the
first occurrence of each absolute form, in input order. -/
def dedupAbs (cwd : String) (seen : List String) : List String → List String
  | [] => []
  | p :: ps =>
    if abspath cwd p ∈ seen then dedupAbs cwd seen ps
    else abspath cwd p :: dedupAbs cwd (abspath cwd p :: seen) ps

/-- The final loop of `_dedup_paths`: keep `p` unless some `q` of the
same list is a proper ancestor of `p`. -/
def dropDesc (result : List String) : List String :=
  result.filter fun p => ! result.any fun q => decide (p ≠ q) && descStartsWith p q

/-- `_dedup_paths`: absolutize + exact-dedup, sort, then drop every path
that is a strict descendant of some path of the sorted list. -/
def dedupPaths (cwd : String) (paths : List String) : List String :=
  dropDesc (isortBy strLe (dedupAbs cwd [] paths))

/-! ## Process Runner (`_run`, lines 24-37) and repo probes -/

/-- Result triple of `subprocess.run`: `(returncode, stdout, stderr)`. -/
structure RunRes where
  code : Int
  out : String
  err : String
deriving DecidableEq, Repr

/-- What the operating system does with the requested command: either the
process runs and yields a result, or the executable cannot be located
(`FileNotFoundError`). -/
inductive RunOutcome where
  | ok : RunRes → RunOutcome
  | notFound : RunOutcome
deriving DecidableEq, Repr

/-- `_run`: forwards the subprocess result, and converts a missing
executable into exit code 127 with an explanatory stderr instead of
letting the exception escape. -/
def runCmd (cmd : List String) (o : RunOutcome) : RunRes :=
  match o with
  | .ok r => r
  | .notFound => ⟨127, "", "command not found: " ++ cmd.headD ""⟩

/-- `_is_git_repo`: `git rev-parse --is-inside-work-tree` exited 0 and
printed `true`. -/
def isGitRepo (res : RunRes) : Bool :=
  decide (res.code = 0 ∧ pyStripS res.out = "true")

/-- `_is_svn_repo`: a `.svn` directory exists, or `svn info` exited 0. -/
def isSvnRepo (svnDirExists : Bool) (infoRes : RunRes) : Bool :=
  svnDirExists || decide (infoRes.code = 0)

/-! ## VCS Log Collector, git flavor (`collect_git`, lines 62-92) -/

/-- The author-date parse chain of `collect_git`: strict ISO parse of the
Z-normalized text converted to local naive time; else
`strptime("%Y-%m-%d %H:%M:%S")` on the first two space-separated tokens
(a missing second token is the caught `IndexError`); else the range
start.  Total: no stage lets an exception escape. -/
def gitParseDate (localOff : Int) (start : DateTime) (ad : String) : DateTime :=
  match fromIso (replaceZ ad) with
  | some p => localize localOff p
  | none =>
    match pySplit ' ' ad.toList with
    | t0 :: t1 :: _ => (strptimeYmdHms ⟨t0 ++ ' ' :: t1⟩).getD start
    | _ => start

/-- One line of `git log --pretty=%H%x1f%ad%x1f%s` output: skipped unless
it splits into exactly three fields on the 0x1f separator. -/
def gitRecordEntry (localOff : Int) (start : DateTime) (repoName : String)
    (line : String) : Option Entry :=
  match pySplit '\x1f' line.toList with
  | [_, ad, subj] =>
    some ⟨gitParseDate localOff start ⟨ad⟩, "git:" ++ repoName, pyStripS ⟨subj⟩⟩
  | _ => none

/-- `collect_git`: probe, run `git log` over the range, parse each line.
`repoCheck` and `logRes` are the results of the two subprocess calls. -/
def collectGit (cwd path : String) (repoCheck logRes : RunRes)
    (localOff : Int) (start : DateTime) : List Entry :=
  if isGitRepo repoCheck then
    if logRes.code ≠ 0 ∨ pyStripS logRes.out = "" then []
    else
      (splitLinesS logRes.out).filterMap
        (gitRecordEntry localOff start (baseName (abspath cwd path)))
  else []

/-! ## VCS Log Collector, svn flavor (`collect_svn`, lines 95-120) -/

/-- `re.findall` for the patterns `<open>(.*?)</close>`: scan left to
right, lazily grab the shortest content before the closing tag; with
`noNl` the content may not contain a newline (`.` does not match `\n`;
the `<msg>` pattern uses `[\s\S]*?` and may).  Fuel-indexed to make the
scan structurally recursive; `findAll` supplies `length + 1` fuel, which
is enough since every step consumes at least one character. -/
def grabUntil (cl : List Char) (noNl : Bool) : List Char → Option (List Char × List Char)
  | [] => none
  | c :: rest =>
    if cl.isPrefixOf (c :: rest) then some ([], (c :: rest).drop cl.length)
    else if noNl ∧ c = '\n' then none
    else
      match grabUntil cl noNl rest with
      | some (content, after) => some (c :: content, after)
      | none => none

def findAllAux (op cl : List Char) (noNl : Bool) : Nat → List Char → List (List Char)
  | 0, _ => []
  | _, [] => []
  | fuel + 1, c :: rest =>
    if op.isPrefixOf (c :: rest) then
      match grabUntil cl noNl ((c :: rest).drop op.length) with
      | some (content, after) => content :: findAllAux op cl noNl fuel after
      | none => findAllAux op cl noNl fuel rest
    else findAllAux op cl noNl fuel rest

def findAll (op cl : String) (noNl : Bool) (s : String) : List (List Char) :=
  findAllAux op.toList cl.toList noNl (s.toList.length + 1) s.toList

/-- `re.sub(r"\s+", " ", s)` (ASCII whitespace). -/
def collapseWsGo (prevSpace : Bool) : List Char → List Char
  | [] => []
  | c :: rest =>
    if isPySpace c then
      if prevSpace then collapseWsGo true rest
      else ' ' :: collapseWsGo true rest
    else c :: collapseWsGo false rest

def collapseWs (cs : List Char) : List Char := collapseWsGo false cs

/-- `collect_svn`: probe, run `svn log --xml` over the range, pair the
`<date>`/`<msg>` tags positionally, ISO-parse each date with fallback to
the range start. -/
def collectSvn (cwd path : String) (svnDirExists : Bool) (infoRes logRes : RunRes)
    (localOff : Int) (start : DateTime) : List Entry :=
  if isSvnRepo svnDirExists infoRes then
    if logRes.code ≠ 0 ∨ pyStripS logRes.out = "" then []
    else
      let repoName := baseName (abspath cwd path)
      let dates := findAll "<date>" "</date>" true logRes.out
      let msgs := findAll "<msg>" "</msg>" false logRes.out
      (dates.zip msgs).map fun dm =>
        let whenV :=
          match fromIso (replaceZ ⟨dm.1⟩) with
          | some p => localize localOff p
          | none => start
        ⟨whenV, "svn:" ++ repoName, ⟨collapseWs (pyStripL dm.2)⟩⟩
  else []

/-! ## VCS Working-Tree Collectors (lines 123-170) and status labels -/

/-- `_vcs_status_label(xy)`: `x, y = xy[:1], xy[1:2]`, `code = y or x`,
mapping lookup with default `code or "변경"`. -/
def vcsStatusLabel (xy : List Char) : String :=
  let x := xy.take 1
  let y := (xy.drop 1).take 1
  let code := if y ≠ [] then y else x
  match code with
  | ['M'] => "수정"
  | ['A'] => "추가"
  | ['D'] => "삭제"
  | ['R'] => "이동"
  | ['C'] => "복사"
  | ['U'] => "병합충돌"
  | ['?'] => "미추적"
  | [] => "변경"
  | other => ⟨other⟩

/-- `_svn_status_label(ch)`. -/
def svnStatusLabel (ch : List Char) : String :=
  match ch with
  | ['M'] => "수정"
  | ['A'] => "추가"
  | ['D'] => "삭제"
  | ['R'] => "이동"
  | ['C'] => "충돌"
  | ['!'] => "누락"
  | ['?'] => "미추적"
  | [] => "변경"
  | other => ⟨other⟩

/-- `rel = line[3:].strip()` of a `git status --porcelain` line. -/
def gitWorkingRel (line : String) : String := pyStripS ⟨line.toList.drop 3⟩

/-- `rel = line[8:].strip() if len(line) > 8 else line[1:].strip()` of an
`svn status` line. -/
def svnWorkingRel (line : String) : String :=
  if 8 < line.toList.length then pyStripS ⟨line.toList.drop 8⟩
  else pyStripS ⟨line.toList.drop 1⟩

/-- One `git status --porcelain` line: skip blanks, stat the file via the
`getMtime` oracle (`none` is the caught stat exception, falling back to
`start`), keep only modification times inside `[start, rangeEnd]`. -/
def gitWorkingLineEntry (path : String) (getMtime : String → Option DateTime)
    (start rangeEnd : DateTime) (repoName : String) (line : String) : Option Entry :=
  if pyStripS line = "" then none
  else
    if start.le ((getMtime (pyJoin2 path (gitWorkingRel line))).getD start) ∧
        ((getMtime (pyJoin2 path (gitWorkingRel line))).getD start).le rangeEnd then
      some ⟨(getMtime (pyJoin2 path (gitWorkingRel line))).getD start, "git:" ++ repoName,
        "작업 중: " ++ gitWorkingRel line ++ " (" ++
          vcsStatusLabel (line.toList.take 2) ++ ")"⟩
    else none

/-- One `svn status` line, same shape. -/
def svnWorkingLineEntry (path : String) (getMtime : String → Option DateTime)
    (start rangeEnd : DateTime) (repoName : String) (line : String) : Option Entry :=
  if pyStripS line = "" then none
  else
    if start.le ((getMtime (pyJoin2 path (svnWorkingRel line))).getD start) ∧
        ((getMtime (pyJoin2 path (svnWorkingRel line))).getD start).le rangeEnd then
      some ⟨(getMtime (pyJoin2 path (svnWorkingRel line))).getD start, "svn:" ++ repoName,
        "작업 중: " ++ svnWorkingRel line ++ " (" ++
          svnStatusLabel (line.toList.take 1) ++ ")"⟩
    else none

/-- `collect_git_working`. -/
def collectGitWorking (cwd path : String) (repoCheck statusRes : RunRes)
    (getMtime : String → Option DateTime) (start rangeEnd : DateTime) : List Entry :=
  if isGitRepo repoCheck then
    if statusRes.code ≠ 0 ∨ pyStripS statusRes.out = "" then []
    else
      (splitLinesS statusRes.out).filterMap
        (gitWorkingLineEntry path getMtime start rangeEnd (baseName (abspath cwd path)))
  else []

/-- `collect_svn_working`. -/
def collectSvnWorking (cwd path : String) (svnDirExists : Bool) (infoRes statusRes : RunRes)
    (getMtime : String → Option DateTime) (start rangeEnd : DateTime) : List Entry :=
  if isSvnRepo svnDirExists infoRes then
    if statusRes.code ≠ 0 ∨ pyStripS statusRes.out = "" then []
    else
      (splitLinesS statusRes.out).filterMap
        (svnWorkingLineEntry path getMtime start rangeEnd (baseName (abspath cwd path)))
  else []

/-! ## Notes Parser (`parse_notes`, lines 173-193) and Manual Entry
Builder (`main`, lines 385-393)

The line pattern is `^(\d{1,2}):(\d{2})\s+(.+)$` (greedy 1-2 digit hour
with backtracking, exactly two minute digits, at least one whitespace
character, non-empty rest).  `date_base.replace(hour=hh, minute=mm,
second=0)` validates its arguments: hour 24-99 or minute 60-99 raise
`ValueError`, which nothing in `parse_notes` or `main` catches — modelled
as `Except.error ()`. -/

/-- The note-line regex: `some (hour, minute, rest)` on match. -/
def matchNoteLine (cs : List Char) : Option (Nat × Nat × List Char) :=
  match cs with
  | d1 :: rest =>
    if d1.isDigit then
      let two :=
        match rest with
        | d2 :: ':' :: r2 =>
          if d2.isDigit then matchNoteAfterColon (10 * digitVal d1 + digitVal d2) r2 else none
        | _ => none
      match two with
      | some r => some r
      | none =>
        match rest with
        | ':' :: r2 => matchNoteAfterColon (digitVal d1) r2
        | _ => none
    else none
  | [] => none
where
  /-- After `HH:`: two minute digits, `\s+`, then `(.+)$` — the greedy
  whitespace run backs off one character when nothing would remain. -/
  matchNoteAfterColon (hh : Nat) : List Char → Option (Nat × Nat × List Char)
    | m1 :: m2 :: r3 =>
      if m1.isDigit ∧ m2.isDigit then
        let mm := 10 * digitVal m1 + digitVal m2
        match r3 with
        | [] => none
        | w :: wrest =>
          if isPySpace w then
            let text := (w :: wrest).dropWhile isPySpace
            if text ≠ [] then some (hh, mm, text)
            else if 2 ≤ (w :: wrest).length then
              some (hh, mm, [(w :: wrest).getLast (by simp)])
            else none
          else none
      else none
    | _ => none

/-- `date_base.replace(hour=hh, minute=mm, second=0)` with argument
validation. -/
def dtReplaceHM (base : DateTime) (hh mm : Nat) : Except Unit DateTime :=
  if hh ≤ 23 ∧ mm ≤ 59 then
    .ok ⟨base.year, base.month, base.day, hh, mm, 0, base.micro⟩
  else .error ()

/-- One line of the notes file: `ok none` for a skipped blank line,
`ok (some e)` for a produced entry, `error` for the uncaught
`ValueError`. -/
def noteLineEntry (base : DateTime) (rawLine : String) : Except Unit (Option Entry) :=
  let line := pyStripS rawLine
  if line = "" then .ok none
  else
    match matchNoteLine line.toList with
    | some (hh, mm, text) =>
      match dtReplaceHM base hh mm with
      | .ok whenV => .ok (some ⟨whenV, "note", pyStripS ⟨text⟩⟩)
      | .error e => .error e
    | none =>
      match dtReplaceHM base 9 0 with
      | .ok whenV => .ok (some ⟨whenV, "note", line⟩)
      | .error e => .error e

def notesGo (base : DateTime) : List String → Except Unit (List Entry)
  | [] => .ok []
  | l :: ls =>
    match noteLineEntry base l with
    | .error e => .error e
    | .ok none => notesGo base ls
    | .ok (some e) =>
      match notesGo base ls with
      | .error err => .error err
      | .ok rest => .ok (e :: rest)

/-- `parse_notes`: `none` file is the caught `FileNotFoundError` (empty
result); a raised `ValueError` aborts the whole run. -/
def parseNotes (file : Option String) (base : DateTime) : Except Unit (List Entry) :=
  match file with
  | none => .ok []
  | some content => notesGo base (splitLinesS content)

/-- One `--add` item (`main`, lines 385-393): same pattern on the stripped
string, `manual` source, 09:00 default on no match. -/
def manualEntry (base : DateTime) (addItem : String) : Except Unit Entry :=
  match matchNoteLine (pyStripS addItem).toList with
  | some (hh, mm, text) =>
    match dtReplaceHM base hh mm with
    | .ok whenV => .ok ⟨whenV, "manual", pyStripS ⟨text⟩⟩
    | .error e => .error e
  | none =>
    match dtReplaceHM base 9 0 with
    | .ok whenV => .ok ⟨whenV, "manual", pyStripS addItem⟩
    | .error e => .error e

/-! ## Time Range Resolver (`_local_today_range`, lines 13-21) -/

/-- `_local_today_range(date_str)`.  `now` is the wall clock passed
explicitly.  `if date_str:` is Python truthiness, so both `None` and the
empty string take the "today" branch; a present non-empty string goes
through `strptime("%Y-%m-%d")`, whose `ValueError` propagates to the
caller (`Except.error`). -/
def localTodayRange (now : DateTime) (ds : Option String) :
    Except Unit (DateTime × DateTime) :=
  let today : DateTime := ⟨now.year, now.month, now.day, 0, 0, 0, 0⟩
  match ds with
  | none => .ok (today, addSecs today 86399)
  | some s =>
    if s = "" then .ok (today, addSecs today 86399)
    else
      match strptimeYmd s with
      | some base => .ok (base, addSecs base 86399)
      | none => .error ()

/-! ## Repository Discovery (`_discover_repos`, lines 313-326)

The filesystem is modelled as the directory tree `os.walk` sees: only
directories matter (the code consults `dirnames`, never `filenames`).
`os.walk` is top-down, so the body runs on a directory before its
children; pruning `dirnames` in place stops the descent into the pruned
name only. -/

mutual
inductive FSDir where
  | mk : String → FSChildren → FSDir
inductive FSChildren where
  | nil : FSChildren
  | cons : FSDir → FSChildren → FSChildren
end

def FSDir.name : FSDir → String
  | .mk n _ => n

def FSChildren.names : FSChildren → List String
  | .nil => []
  | .cons d rest => d.name :: rest.names

mutual
/-- The walk body of `_discover_repos` at one directory: record a git
root when a `.git` child directory exists (and do not descend into it,
nor test for `.svn`), else record an svn root when a `.svn` child
exists, then walk the remaining children in order. -/
def walkDir (path : String) (d : FSDir) : List String × List String :=
  match d with
  | .mk _ children =>
    if ".git" ∈ children.names then
      let r := walkKids path (some ".git") children
      (path :: r.1, r.2)
    else if ".svn" ∈ children.names then
      let r := walkKids path (some ".svn") children
      (r.1, path :: r.2)
    else walkKids path none children

def walkKids (path : String) (skip : Option String) : FSChildren → List String × List String
  | .nil => ([], [])
  | .cons c rest =>
    if some c.name = skip then walkKids path skip rest
    else
      let sub := walkDir (pyJoin2 path c.name) c
      let tail := walkKids path skip rest
      (sub.1 ++ tail.1, sub.2 ++ tail.2)
end

/-- The accumulated walk results over all roots, in root order. -/
def walkRoots (cwd : String) (roots : List (String × FSDir)) :
    List String × List String :=
  roots.foldr
    (fun r acc =>
      ((walkDir (abspath cwd r.1) r.2).1 ++ acc.1,
       (walkDir (abspath cwd r.1) r.2).2 ++ acc.2))
    ([], [])

/-- `_discover_repos(roots)`: each root is absolutized and walked against
the directory tree the filesystem presents for it; the two found lists
are then flattened through `_dedup_paths`. -/
def discoverRepos (cwd : String) (roots : List (String × FSDir)) :
    List String × List String :=
  (dedupPaths cwd (walkRoots cwd roots).1, dedupPaths cwd (walkRoots cwd roots).2)

/-! ## Claim theorems -/

/-- C8: a git history record line that does not split into exactly three
0x1f-separated fields is silently skipped; a well-formed record's
author-date goes through the ordered three-stage chain — strict ISO-8601
with `Z` normalized, converted to local naive time; else
`strptime("%Y-%m-%d %H:%M:%S")` of the first two space-separated tokens;
else the range start — and every stage is total (the caught exceptions are
the `none` cases of the model), so no exception escapes the collector. -/
theorem git_record_parse_chain (localOff : Int) (start : DateTime) (name line : String) :
    ((pySplit '\x1f' line.toList).length ≠ 3 →
      gitRecordEntry localOff start name line = none)
    ∧ (∀ hsh ad subj, pySplit '\x1f' line.toList = [hsh, ad, subj] →
        gitRecordEntry localOff start name line =
          some ⟨gitParseDate localOff start ⟨ad⟩, "git:" ++ name, pyStripS ⟨subj⟩⟩
        ∧ (∀ p, fromIso (replaceZ ⟨ad⟩) = some p →
            gitParseDate localOff start ⟨ad⟩ = localize localOff p)
        ∧ (fromIso (replaceZ ⟨ad⟩) = none →
            (∀ t0 t1 rest, pySplit ' ' ad = t0 :: t1 :: rest →
              gitParseDate localOff start ⟨ad⟩ =
                (strptimeYmdHms ⟨t0 ++ ' ' :: t1⟩).getD start)
            ∧ ((pySplit ' ' ad).length ≤ 1 →
              gitParseDate localOff start ⟨ad⟩ = start))) := by
  constructor
  · intro hlen
    unfold gitRecordEntry
    split
    · rename_i heq
      rw [heq] at hlen
      simp at hlen
    · rfl
  · intro hsh ad subj heq
    refine ⟨?_, ?_, ?_⟩
    · unfold gitRecordEntry
      rw [heq]
    · intro p hp
      unfold gitParseDate
      rw [hp]
    · intro hnone
      constructor
      · intro t0 t1 rest hsp
        unfold gitParseDate
        rw [hnone]
        have : pySplit ' ' (String.toList ⟨ad⟩) = t0 :: t1 :: rest := hsp
        rw [this]
      · intro hshort
        unfold gitParseDate
        rw [hnone]
        rcases h2 : pySplit ' ' (String.toList ⟨ad⟩) with _ | ⟨t0, _ | ⟨t1, r⟩⟩
        · rfl
        · rfl
        · have : pySplit ' ' ad = t0 :: t1 :: r := h2
          rw [this] at hshort
          simp at hshort

/-- Witness for C8: a concrete `--date=iso-strict` record line. -/
theorem git_record_parse_chain_witness :
    gitRecordEntry 540 ⟨2025, 9, 20, 0, 0, 0, 0⟩ "repo"
        "h\x1f2025-09-20T10:15:30+09:00\x1ffix bug" =
      some ⟨⟨2025, 9, 20, 10, 15, 30, 0⟩, "git:repo", "fix bug"⟩ :=
  (((git_record_parse_chain 540 ⟨2025, 9, 20, 0, 0, 0, 0⟩ "repo"
        "h\x1f2025-09-20T10:15:30+09:00\x1ffix bug").2
      "h".toList "2025-09-20T10:15:30+09:00".toList "fix bug".toList
      (by decide)).1).trans (by decide)

/-- C5: when the executable cannot be located the Process Runner returns
exit code 127 and a non-empty explanatory stderr instead of raising, and
every collector turns a nonzero exit code of its query into an empty
entry list. -/
theorem run_missing_tool_collectors_empty :
    (∀ cmd : List String, cmd ≠ [] →
      runCmd cmd .notFound = ⟨127, "", "command not found: " ++ cmd.headD ""⟩
      ∧ ("command not found: " ++ cmd.headD "") ≠ "")
    ∧ (∀ cwd path rc res off st, res.code ≠ 0 →
        collectGit cwd path rc res off st = [])
    ∧ (∀ cwd path sv ir res off st, res.code ≠ 0 →
        collectSvn cwd path sv ir res off st = [])
    ∧ (∀ cwd path rc res mt st en, res.code ≠ 0 →
        collectGitWorking cwd path rc res mt st en = [])
    ∧ (∀ cwd path sv ir res mt st en, res.code ≠ 0 →
        collectSvnWorking cwd path sv ir res mt st en = []) := by
  refine ⟨?_, ?_, ?_, ?_, ?_⟩
  · intro cmd _
    refine ⟨rfl, ?_⟩
    intro h
    have hlen := congrArg String.length h
    simp [String.length_append] at hlen
    exact absurd hlen.1 (by decide)
  · intro cwd path rc res off st h
    unfold collectGit
    split
    · rw [if_pos (Or.inl h)]
    · rfl
  · intro cwd path sv ir res off st h
    unfold collectSvn
    split
    · rw [if_pos (Or.inl h)]
    · rfl
  · intro cwd path rc res mt st en h
    unfold collectGitWorking
    split
    · rw [if_pos (Or.inl h)]
    · rfl
  · intro cwd path sv ir res mt st en h
    unfold collectSvnWorking
    split
    · rw [if_pos (Or.inl h)]
    · rfl

/-- Witness for C5: a missing `git` binary and a 127 exit code. -/
theorem run_missing_tool_collectors_empty_witness :
    runCmd ["git", "log"] .notFound = ⟨127, "", "command not found: git"⟩
    ∧ collectGit "/" "/r" ⟨0, "true", ""⟩ ⟨127, "", "x"⟩ 0 ⟨2025, 9, 20, 0, 0, 0, 0⟩ = []
    ∧ collectSvn "/" "/r" true ⟨0, "", ""⟩ ⟨1, "", "x"⟩ 0 ⟨2025, 9, 20, 0, 0, 0, 0⟩ = []
    ∧ collectGitWorking "/" "/r" ⟨0, "true", ""⟩ ⟨127, "", "x"⟩ (fun _ => none)
        ⟨2025, 9, 20, 0, 0, 0, 0⟩ ⟨2025, 9, 20, 23, 59, 59, 0⟩ = []
    ∧ collectSvnWorking "/" "/r" true ⟨0, "", ""⟩ ⟨127, "", "x"⟩ (fun _ => none)
        ⟨2025, 9, 20, 0, 0, 0, 0⟩ ⟨2025, 9, 20, 23, 59, 59, 0⟩ = [] :=
  ⟨((run_missing_tool_collectors_empty.1 ["git", "log"] (by decide)).1).trans (by decide),
   run_missing_tool_collectors_empty.2.1 "/" "/r" ⟨0, "true", ""⟩ ⟨127, "", "x"⟩ 0
     ⟨2025, 9, 20, 0, 0, 0, 0⟩ (by decide),
   run_missing_tool_collectors_empty.2.2.1 "/" "/r" true ⟨0, "", ""⟩ ⟨1, "", "x"⟩ 0
     ⟨2025, 9, 20, 0, 0, 0, 0⟩ (by decide),
   run_missing_tool_collectors_empty.2.2.2.1 "/" "/r" ⟨0, "true", ""⟩ ⟨127, "", "x"⟩
     (fun _ => none) ⟨2025, 9, 20, 0, 0, 0, 0⟩ ⟨2025, 9, 20, 23, 59, 59, 0⟩ (by decide),
   run_missing_tool_collectors_empty.2.2.2.2 "/" "/r" true ⟨0, "", ""⟩ ⟨127, "", "x"⟩
     (fun _ => none) ⟨2025, 9, 20, 0, 0, 0, 0⟩ ⟨2025, 9, 20, 23, 59, 59, 0⟩ (by decide)⟩

/-- C9: every working-tree-derived entry (git or svn flavor) has `when`
inside the closed range `[start, rangeEnd]` — out-of-range modification
times produce no entry — and a listed file whose stat fails (the mtime
oracle answers `none`) falls back to the range start and, whenever the
range is non-empty, still yields an entry instead of failing the
collection. -/
theorem working_tree_entries_in_range (cwd path : String) (rc sr ir ssr : RunRes)
    (sv : Bool) (mt : String → Option DateTime) (start rend : DateTime) :
    (∀ e ∈ collectGitWorking cwd path rc sr mt start rend,
        start.le e.when ∧ e.when.le rend)
    ∧ (∀ e ∈ collectSvnWorking cwd path sv ir ssr mt start rend,
        start.le e.when ∧ e.when.le rend)
    ∧ (∀ nm line, pyStripS line ≠ "" →
        mt (pyJoin2 path (gitWorkingRel line)) = none → start.le rend →
        ∃ e, gitWorkingLineEntry path mt start rend nm line = some e ∧ e.when = start)
    ∧ (∀ nm line, pyStripS line ≠ "" →
        mt (pyJoin2 path (svnWorkingRel line)) = none → start.le rend →
        ∃ e, svnWorkingLineEntry path mt start rend nm line = some e ∧ e.when = start) := by
  refine ⟨?_, ?_, ?_, ?_⟩
  · intro e he
    unfold collectGitWorking at he
    split at he
    · split at he
      · simp at he
      · rcases List.mem_filterMap.mp he with ⟨line, _, hline⟩
        unfold gitWorkingLineEntry at hline
        split at hline
        · simp at hline
        · split at hline
          · rename_i hcond
            cases hline
            exact hcond
          · simp at hline
    · simp at he
  · intro e he
    unfold collectSvnWorking at he
    split at he
    · split at he
      · simp at he
      · rcases List.mem_filterMap.mp he with ⟨line, _, hline⟩
        unfold svnWorkingLineEntry at hline
        split at hline
        · simp at hline
        · split at hline
          · rename_i hcond
            cases hline
            exact hcond
          · simp at hline
    · simp at he
  · intro nm line hne hmt hse
    refine ⟨⟨start, "git:" ++ nm, "작업 중: " ++ gitWorkingRel line ++ " (" ++
      vcsStatusLabel (line.toList.take 2) ++ ")"⟩, ?_, rfl⟩
    unfold gitWorkingLineEntry
    rw [if_neg hne, hmt]
    simp only [Option.getD_none]
    rw [if_pos ⟨DateTime.le_refl start, hse⟩]
  · intro nm line hne hmt hse
    refine ⟨⟨start, "svn:" ++ nm, "작업 중: " ++ svnWorkingRel line ++ " (" ++
      svnStatusLabel (line.toList.take 1) ++ ")"⟩, ?_, rfl⟩
    unfold svnWorkingLineEntry
    rw [if_neg hne, hmt]
    simp only [Option.getD_none]
    rw [if_pos ⟨DateTime.le_refl start, hse⟩]

/-- Witness for C9: a git working-tree line whose stat fails inside a
one-day range, and an in-range check on a produced entry. -/
theorem working_tree_entries_in_range_witness :
    (∃ e, gitWorkingLineEntry "/r" (fun _ => none) ⟨2025, 9, 20, 0, 0, 0, 0⟩
        ⟨2025, 9, 20, 23, 59, 59, 0⟩ "r" " M a.py" = some e ∧
        e.when = ⟨2025, 9, 20, 0, 0, 0, 0⟩)
    ∧ (DateTime.le ⟨2025, 9, 20, 0, 0, 0, 0⟩
          (⟨2025, 9, 20, 0, 0, 0, 0⟩ : DateTime)
        ∧ DateTime.le ⟨2025, 9, 20, 0, 0, 0, 0⟩ ⟨2025, 9, 20, 23, 59, 59, 0⟩) :=
  ⟨(working_tree_entries_in_range "/" "/r" ⟨0, "true", ""⟩ ⟨0, " M a.py", ""⟩
      ⟨0, "", ""⟩ ⟨0, "", ""⟩ true (fun _ => none) ⟨2025, 9, 20, 0, 0, 0, 0⟩
      ⟨2025, 9, 20, 23, 59, 59, 0⟩).2.2.1 "r" " M a.py" (by decide) rfl (by decide),
   (working_tree_entries_in_range "/" "/r" ⟨0, "true", ""⟩ ⟨0, " M a.py", ""⟩
      ⟨0, "", ""⟩ ⟨0, "", ""⟩ true (fun _ => none) ⟨2025, 9, 20, 0, 0, 0, 0⟩
      ⟨2025, 9, 20, 23, 59, 59, 0⟩).1
     ⟨⟨2025, 9, 20, 0, 0, 0, 0⟩, "git:r", "작업 중: a.py (수정)"⟩ (by decide)⟩

/-- C3 (the code contradicts the claim): a notes line or `--add` string
whose hour or minute digits are out of range matches the `\d{1,2}:\d{2}`
pattern, so the code calls `date_base.replace(hour=25, ...)`, which
raises `ValueError`; nothing catches it, the run aborts, and earlier
entries are lost — there is no 09:00 fallback for such lines. -/
theorem notes_hour_out_of_range_aborts :
    parseNotes (some "08:30 standup\n25:00 standup") ⟨2025, 9, 20, 0, 0, 0, 0⟩ =
      Except.error ()
    ∧ manualEntry ⟨2025, 9, 20, 0, 0, 0, 0⟩ "25:00 review" = Except.error () := by
  decide

/-- Counterexample to C7 as stated: the line `"07:99 minutes"` matches the
`HH:MM <rest>` pattern (two minute digits, value 99), yet it yields no
entry at hour 7 minute 99 — `datetime.replace(minute=99)` raises. -/
theorem note_line_minute99_cex :
    noteLineEntry ⟨2025, 9, 20, 0, 0, 0, 0⟩ "07:99 minutes" = Except.error () := by
  decide

/-- C7 as amended: blank lines yield no entry; a non-blank line matching
the `HH:MM <rest>` pattern with hour at most 23 and minute at most 59
yields an Entry at that time on the report date with the stripped rest as
summary and source `"note"`; a matching line with hour above 23 or minute
above 59 raises instead of falling back; a non-blank non-matching line
yields an Entry at 09:00 with the whole stripped line as summary; a
missing notes file yields an empty result rather than an error. -/
theorem parse_notes_line_spec (base : DateTime) (line : String) :
    (pyStripS line = "" → noteLineEntry base line = .ok none)
    ∧ (∀ hh mm text, matchNoteLine (pyStripS line).toList = some (hh, mm, text) →
        (hh ≤ 23 ∧ mm ≤ 59 →
          noteLineEntry base line =
            .ok (some ⟨⟨base.year, base.month, base.day, hh, mm, 0, base.micro⟩,
              "note", pyStripS ⟨text⟩⟩))
        ∧ (hh > 23 ∨ mm > 59 → noteLineEntry base line = .error ()))
    ∧ (pyStripS line ≠ "" → matchNoteLine (pyStripS line).toList = none →
        noteLineEntry base line =
          .ok (some ⟨⟨base.year, base.month, base.day, 9, 0, 0, base.micro⟩,
            "note", pyStripS line⟩))
    ∧ parseNotes none base = .ok [] := by
  refine ⟨?_, ?_, ?_, rfl⟩
  · intro hempty
    unfold noteLineEntry
    rw [if_pos hempty]
  · intro hh mm text hmatch
    have hne : ¬ pyStripS line = "" := by
      intro hempty
      rw [hempty] at hmatch
      simp [matchNoteLine] at hmatch
    constructor
    · intro hok
      unfold noteLineEntry
      rw [if_neg hne]
      simp only [hmatch]
      unfold dtReplaceHM
      rw [if_pos hok]
    · intro hbad
      unfold noteLineEntry
      rw [if_neg hne]
      simp only [hmatch]
      unfold dtReplaceHM
      rw [if_neg (show ¬ (hh ≤ 23 ∧ mm ≤ 59) by omega)]
  · intro hne hnomatch
    unfold noteLineEntry
    rw [if_neg hne]
    simp only [hnomatch]
    unfold dtReplaceHM
    rw [if_pos (show 9 ≤ 23 ∧ 0 ≤ 59 by omega)]

/-- Witness for C7 (amended) at the spec's own examples. -/
theorem parse_notes_line_spec_witness :
    noteLineEntry ⟨2025, 9, 20, 0, 0, 0, 0⟩ "09:10 crash analysis" =
      .ok (some ⟨⟨2025, 9, 20, 9, 10, 0, 0⟩, "note", "crash analysis"⟩)
    ∧ noteLineEntry ⟨2025, 9, 20, 0, 0, 0, 0⟩ "no time marker" =
      .ok (some ⟨⟨2025, 9, 20, 9, 0, 0, 0⟩, "note", "no time marker"⟩)
    ∧ parseNotes none ⟨2025, 9, 20, 0, 0, 0, 0⟩ = .ok [] :=
  ⟨(((parse_notes_line_spec ⟨2025, 9, 20, 0, 0, 0, 0⟩ "09:10 crash analysis").2.1
        9 10 "crash analysis".toList (by decide)).1 (by decide)).trans (by decide),
   ((parse_notes_line_spec ⟨2025, 9, 20, 0, 0, 0, 0⟩ "no time marker").2.2.1
      (by decide) (by decide)).trans (by decide),
   (parse_notes_line_spec ⟨2025, 9, 20, 0, 0, 0, 0⟩ "x").2.2.2⟩

theorem firstSome_eq_some {l : List α} {f : α → Option β} {r : β}
    (h : firstSome l f = some r) : ∃ x ∈ l, f x = some r := by
  induction l with
  | nil => simp [firstSome] at h
  | cons x xs ih =>
    unfold firstSome at h
    cases hfx : f x with
    | some v =>
      simp only [hfx] at h
      exact ⟨x, List.mem_cons_self x xs, by rw [hfx, h]⟩
    | none =>
      simp only [hfx] at h
      rcases ih h with ⟨z, hz, hfz⟩
      exact ⟨z, List.mem_cons_of_mem x hz, hfz⟩

/-- A successful `strptime("%Y-%m-%d")` always returns a midnight value. -/
theorem strptimeYmd_midnight {s : String} {b : DateTime}
    (h : strptimeYmd s = some b) :
    b.hour = 0 ∧ b.minute = 0 ∧ b.second = 0 ∧ b.micro = 0 := by
  unfold strptimeYmd at h
  split at h
  · exact absurd h (by simp)
  · split at h
    · rcases firstSome_eq_some h with ⟨md, _, hmd⟩
      split at hmd
      · rcases firstSome_eq_some hmd with ⟨dd, _, hdd⟩
        split at hdd
        · cases hdd
          exact ⟨rfl, rfl, rfl, rfl⟩
        · exact absurd hdd (by simp)
      · exact absurd hmd (by simp)
    · exact absurd h (by simp)

/-- Midnight of a day plus `1 day - 1 second` is 23:59:59 of that day. -/
theorem addSecs_day_end (y m d mic : Nat) :
    addSecs ⟨y, m, d, 0, 0, 0, mic⟩ 86399 = ⟨y, m, d, 23, 59, 59, mic⟩ := by
  simp [addSecs, advDays]

/-- Counterexample to C4 as stated: the empty string is a present date
argument not in `YYYY-MM-DD` form, yet `if date_str:` is Python
truthiness, so the resolver silently returns the current date's range
instead of failing with a parse error. -/
theorem today_range_empty_string_cex :
    localTodayRange ⟨2025, 9, 20, 13, 45, 7, 0⟩ (some "") =
      .ok (⟨2025, 9, 20, 0, 0, 0, 0⟩, ⟨2025, 9, 20, 23, 59, 59, 0⟩)
    ∧ localTodayRange ⟨2025, 9, 20, 13, 45, 7, 0⟩ (some "") ≠ .error () := by
  decide

/-- C4 as amended: an absent or empty date string gives start = midnight
of the current date; a present non-empty string accepted by
`strptime("%Y-%m-%d")` gives start = midnight of that date; in both
cases end = start + 1 day - 1 second = 23:59:59 of the same date; a
present non-empty string the parser rejects makes the resolver fail with
the parse error propagating to the caller. -/
theorem local_today_range_spec (now : DateTime) (ds : Option String) :
    ((ds = none ∨ ds = some "") →
      localTodayRange now ds =
        .ok (⟨now.year, now.month, now.day, 0, 0, 0, 0⟩,
             ⟨now.year, now.month, now.day, 23, 59, 59, 0⟩))
    ∧ (∀ s, ds = some s → s ≠ "" →
        (∀ b, strptimeYmd s = some b →
          localTodayRange now ds =
            .ok (b, ⟨b.year, b.month, b.day, 23, 59, 59, b.micro⟩)
          ∧ b.hour = 0 ∧ b.minute = 0 ∧ b.second = 0)
        ∧ (strptimeYmd s = none → localTodayRange now ds = .error ())) := by
  constructor
  · rintro (rfl | rfl)
    · simp only [localTodayRange]
      rw [addSecs_day_end]
    · simp only [localTodayRange, if_true]
      rw [addSecs_day_end]
  · rintro s rfl hne
    constructor
    · intro b hb
      have hsh := strptimeYmd_midnight hb
      obtain ⟨y', mo', d', hh', mi', ss', us'⟩ := b
      simp only at hsh
      obtain ⟨rfl, rfl, rfl, rfl⟩ := hsh
      refine ⟨?_, rfl, rfl, rfl⟩
      simp only [localTodayRange]
      rw [if_neg hne]
      simp only [hb]
      rw [addSecs_day_end]
    · intro hnone
      simp only [localTodayRange]
      rw [if_neg hne]
      simp only [hnone]

/-- Witness for C4 (amended) at a concrete date string. -/
theorem local_today_range_spec_witness :
    localTodayRange ⟨2025, 1, 2, 3, 4, 5, 6⟩ (some "2025-09-20") =
      .ok (⟨2025, 9, 20, 0, 0, 0, 0⟩, ⟨2025, 9, 20, 23, 59, 59, 0⟩)
    ∧ localTodayRange ⟨2025, 1, 2, 3, 4, 5, 6⟩ (some "2025-09-31") = .error () :=
  ⟨(((local_today_range_spec ⟨2025, 1, 2, 3, 4, 5, 6⟩ (some "2025-09-20")).2
        "2025-09-20" rfl (by decide)).1 ⟨2025, 9, 20, 0, 0, 0, 0⟩ (by decide)).1.trans
      (by decide),
   ((local_today_range_spec ⟨2025, 1, 2, 3, 4, 5, 6⟩ (some "2025-09-31")).2
      "2025-09-31" rfl (by decide)).2 (by decide)⟩

/-! ### Lemmas about `_dedup_paths` -/

theorem dedupAbs_not_mem_seen {cwd : String} {seen l : List String} {x : String}
    (h : x ∈ dedupAbs cwd seen l) : x ∉ seen := by
  induction l generalizing seen with
  | nil => simp [dedupAbs] at h
  | cons p ps ih =>
    unfold dedupAbs at h
    split at h
    · exact ih h
    · rename_i hnot
      rcases List.mem_cons.mp h with rfl | h
      · exact hnot
      · intro hx
        exact ih h (List.mem_cons_of_mem _ hx)

theorem dedupAbs_nodup (cwd : String) (seen l : List String) :
    (dedupAbs cwd seen l).Nodup := by
  induction l generalizing seen with
  | nil => exact List.nodup_nil
  | cons p ps ih =>
    unfold dedupAbs
    split
    · exact ih seen
    · refine List.Nodup.cons ?_ (ih _)
      intro hmem
      exact dedupAbs_not_mem_seen hmem (List.mem_cons_self _ _)

theorem dedupAbs_mem_image {cwd : String} {seen l : List String} {x : String}
    (h : x ∈ dedupAbs cwd seen l) : ∃ p ∈ l, x = abspath cwd p := by
  induction l generalizing seen with
  | nil => simp [dedupAbs] at h
  | cons p ps ih =>
    unfold dedupAbs at h
    split at h
    · rcases ih h with ⟨z, hz, he⟩
      exact ⟨z, List.mem_cons_of_mem _ hz, he⟩
    · rcases List.mem_cons.mp h with rfl | h
      · exact ⟨p, List.mem_cons_self _ _, rfl⟩
      · rcases ih h with ⟨z, hz, he⟩
        exact ⟨z, List.mem_cons_of_mem _ hz, he⟩

theorem dedupAbs_complete {cwd : String} {l : List String} {p : String}
    (seen : List String) (h : p ∈ l) :
    abspath cwd p ∈ seen ∨ abspath cwd p ∈ dedupAbs cwd seen l := by
  induction l generalizing seen with
  | nil => simp at h
  | cons x xs ih =>
    rcases List.mem_cons.mp h with rfl | h
    · unfold dedupAbs
      split
      · rename_i hin
        exact Or.inl hin
      · exact Or.inr (List.mem_cons_self _ _)
    · unfold dedupAbs
      split
      · exact ih seen h
      · rcases ih (abspath cwd x :: seen) h with hseen | hrec
        · rcases List.mem_cons.mp hseen with he | hseen
          · exact Or.inr (he ▸ List.mem_cons_self _ _)
          · exact Or.inl hseen
        · exact Or.inr (List.mem_cons_of_mem _ hrec)

theorem dedupAbs_eq_self {cwd : String} {seen rl : List String}
    (hfix : ∀ x ∈ rl, abspath cwd x = x) (hnd : rl.Nodup)
    (hdisj : ∀ x ∈ rl, x ∉ seen) : dedupAbs cwd seen rl = rl := by
  induction rl generalizing seen with
  | nil => rfl
  | cons x xs ih =>
    have hx : abspath cwd x = x := hfix x (List.mem_cons_self _ _)
    unfold dedupAbs
    rw [hx, if_neg (hdisj x (List.mem_cons_self _ _))]
    congr 1
    rcases hnd with _ | ⟨hxnot, hnd'⟩
    refine ih (fun z hz => hfix z (List.mem_cons_of_mem _ hz)) hnd' ?_
    intro z hz hzin
    rcases List.mem_cons.mp hzin with rfl | hzin
    · exact hxnot z hz rfl
    · exact hdisj z (List.mem_cons_of_mem _ hz) hzin

theorem dropDesc_sublist (R : List String) : (dropDesc R).Sublist R :=
  List.filter_sublist R

theorem desc_cond_false {p q : String}
    (h : ¬(p ≠ q ∧ descStartsWith p q = true)) :
    (decide (p ≠ q) && descStartsWith p q) = false := by
  by_cases hne : p = q
  · subst hne; simp
  · rcases Bool.eq_false_or_eq_true (descStartsWith p q) with hd | hd
    · exact absurd ⟨hne, hd⟩ h
    · simp [hd]

theorem mem_dropDesc_iff {R : List String} {p : String} :
    p ∈ dropDesc R ↔
      p ∈ R ∧ ∀ q ∈ R, ¬(p ≠ q ∧ descStartsWith p q = true) := by
  unfold dropDesc
  rw [List.mem_filter]
  constructor
  · rintro ⟨hp, hcond⟩
    refine ⟨hp, ?_⟩
    rintro q hq ⟨hne, hdesc⟩
    rw [Bool.not_eq_true', List.any_eq_false] at hcond
    have h2 := hcond q hq
    simp [hne, hdesc] at h2
  · rintro ⟨hp, hcond⟩
    refine ⟨hp, ?_⟩
    rw [Bool.not_eq_true', List.any_eq_false]
    intro q hq
    rw [desc_cond_false (hcond q hq)]
    simp

theorem dropDesc_no_desc {R : List String} {p q : String}
    (hp : p ∈ dropDesc R) (hq : q ∈ dropDesc R) :
    ¬(p ≠ q ∧ descStartsWith p q = true) := by
  rcases mem_dropDesc_iff.mp hp with ⟨_, hcond⟩
  exact hcond q (List.mem_of_mem_filter hq)

theorem dropDesc_eq_self {R : List String}
    (h : ∀ p ∈ R, ∀ q ∈ R, ¬(p ≠ q ∧ descStartsWith p q = true)) :
    dropDesc R = R := by
  unfold dropDesc
  rw [List.filter_eq_self]
  intro p hp
  rw [Bool.not_eq_true', List.any_eq_false]
  intro q hq
  rw [desc_cond_false (h p hp q hq)]
  simp

theorem descStartsWith_ancestor {p q : String} (h : descStartsWith p q = true) :
    (q.toList ++ ['/']) <+: p.toList := List.isPrefixOf_iff_prefix.mp h

theorem descStartsWith_length {p q : String} (h : descStartsWith p q = true) :
    q.toList.length < p.toList.length := by
  have hl := (descStartsWith_ancestor h).length_le
  simp only [List.length_append, List.length_singleton] at hl
  omega

theorem descStartsWith_chain {p q r : String}
    (hpq : descStartsWith p q = true) (hqr : descStartsWith q r = true) :
    descStartsWith p r = true := by
  apply List.isPrefixOf_iff_prefix.mpr
  have h1 := descStartsWith_ancestor hpq
  have h2 := descStartsWith_ancestor hqr
  exact h2.trans ((List.prefix_append q.toList ['/']).trans h1)

theorem not_mem_dropDesc {R : List String} {p : String} (hp : p ∈ R)
    (h : p ∉ dropDesc R) : ∃ q ∈ R, p ≠ q ∧ descStartsWith p q = true := by
  by_contra hno
  push_neg at hno
  refine h (mem_dropDesc_iff.mpr ⟨hp, ?_⟩)
  rintro q hq ⟨hne, hd⟩
  exact (hno q hq hne) hd

theorem dropDesc_complete_aux (R : List String) :
    ∀ n p, p.toList.length ≤ n → p ∈ R →
      p ∈ dropDesc R ∨ ∃ q ∈ dropDesc R, q ≠ p ∧ descStartsWith p q = true := by
  intro n
  induction n with
  | zero =>
    intro p hlen hp
    by_cases hmem : p ∈ dropDesc R
    · exact Or.inl hmem
    · exfalso
      rcases not_mem_dropDesc hp hmem with ⟨q, _, _, hdesc⟩
      have := descStartsWith_length hdesc
      omega
  | succ n ih =>
    intro p hlen hp
    by_cases hmem : p ∈ dropDesc R
    · exact Or.inl hmem
    · rcases not_mem_dropDesc hp hmem with ⟨q, hqR, hne, hdesc⟩
      have hql := descStartsWith_length hdesc
      rcases ih q (by omega) hqR with hq | ⟨q', hq', hne', hdesc'⟩
      · exact Or.inr ⟨q, hq, Ne.symm hne, hdesc⟩
      · have hql' := descStartsWith_length hdesc'
        refine Or.inr ⟨q', hq', ?_, descStartsWith_chain hdesc hdesc'⟩
        intro he
        rw [he] at hql'
        omega

/-- A path dropped by `_dedup_paths`' final loop always has a surviving
proper ancestor. -/
theorem dropDesc_complete {R : List String} {p : String} (hp : p ∈ R) :
    p ∈ dropDesc R ∨ ∃ q ∈ dropDesc R, q ≠ p ∧ descStartsWith p q = true :=
  dropDesc_complete_aux R p.toList.length p (Nat.le_refl _) hp

theorem leadSlashes_bounds {cs : List Char} (h : cs.headD ' ' = '/') :
    leadSlashes cs = 1 ∨ leadSlashes cs = 2 := by
  unfold leadSlashes
  rw [if_neg (not_not_intro h)]
  split
  · exact Or.inr rfl
  · exact Or.inl rfl

theorem headD_append_left {l r : List Char} (h : l ≠ []) :
    (l ++ r).headD ' ' = l.headD ' ' := by
  cases l with
  | nil => exact absurd rfl h
  | cons c t => rfl

theorem normPathL_abs_head {cs : List Char} (h : cs.headD ' ' = '/') :
    (normPathL cs).headD ' ' = '/' := by
  have hne : cs ≠ [] := by intro he; subst he; simp at h
  unfold normPathL
  rw [if_neg hne]
  rcases leadSlashes_bounds h with hk | hk <;> rw [hk] <;>
    simp [List.replicate_succ]

theorem joinL_abs_head {a b : List Char} (ha : a.headD ' ' = '/') :
    (joinL a b).headD ' ' = '/' := by
  have hane : a ≠ [] := by intro he; subst he; simp at ha
  unfold joinL
  split
  · rename_i hb
    exact hb
  · split
    · rw [headD_append_left hane]
      exact ha
    · rw [headD_append_left hane]
      exact ha

theorem abspath_abs_head {cwd p : String} (h : cwd.toList.headD ' ' = '/') :
    (abspath cwd p).toList.headD ' ' = '/' := by
  show (abspathL cwd.toList p.toList).headD ' ' = '/'
  unfold abspathL
  split
  · rename_i hp
    exact normPathL_abs_head hp
  · exact normPathL_abs_head (joinL_abs_head h)

/-- C6: the Path Deduplicator normalizes every candidate to an absolute
canonical form, removes exact duplicates, sorts lexicographically, and
drops exactly the strict descendants: the output is sorted and
duplicate-free, consists of absolutized inputs, contains no
path that is a strict descendant of another output path, every input
survives unless a surviving proper ancestor covers it, and on
`["/a", "/a/b", "/c"]` (inputs already absolute, so the working
directory is irrelevant) the output is exactly `["/a", "/c"]`. -/
theorem dedup_paths_spec (cwd : String) (paths : List String)
    (hc : cwd.toList.headD ' ' = '/') :
    (dedupPaths cwd paths).Pairwise (fun a b => strLe a b = true)
    ∧ (dedupPaths cwd paths).Nodup
    ∧ (∀ p ∈ dedupPaths cwd paths, ∃ x ∈ paths, p = abspath cwd x)
    ∧ (∀ p ∈ dedupPaths cwd paths, p.toList.headD ' ' = '/')
    ∧ (∀ p ∈ dedupPaths cwd paths, ∀ q ∈ dedupPaths cwd paths,
        ¬(p ≠ q ∧ descStartsWith p q = true))
    ∧ (∀ x ∈ paths, abspath cwd x ∈ dedupPaths cwd paths ∨
        ∃ q ∈ dedupPaths cwd paths, q ≠ abspath cwd x ∧
          descStartsWith (abspath cwd x) q = true)
    ∧ dedupPaths "/" ["/a", "/a/b", "/c"] = ["/a", "/c"] := by
  have hmemsort : ∀ z, z ∈ isortBy strLe (dedupAbs cwd [] paths) ↔
      z ∈ dedupAbs cwd [] paths :=
    fun z => (isortBy_perm strLe (dedupAbs cwd [] paths)).mem_iff
  have himg : ∀ p ∈ dedupPaths cwd paths, ∃ x ∈ paths, p = abspath cwd x := by
    intro p hp
    have hp2 := (hmemsort p).mp ((dropDesc_sublist _).mem hp)
    exact dedupAbs_mem_image hp2
  refine ⟨?_, ?_, himg, ?_, ?_, ?_, ?_⟩
  · exact (isortBy_pairwise strLe_total strLe_trans _).sublist (dropDesc_sublist _)
  · exact ((isortBy_nodup (dedupAbs_nodup cwd [] paths))).sublist (dropDesc_sublist _)
  · intro p hp
    rcases himg p hp with ⟨x, _, rfl⟩
    exact abspath_abs_head hc
  · intro p hp q hq
    exact dropDesc_no_desc hp hq
  · intro x hx
    rcases dedupAbs_complete [] hx with habs | habs
    · simp at habs
    · have hsorted := (hmemsort (abspath cwd x)).mpr habs
      exact dropDesc_complete hsorted
  · decide

/-- Witness for C6 at the spec's own example. -/
theorem dedup_paths_spec_witness :
    dedupPaths "/" ["/a", "/a/b", "/c"] = ["/a", "/c"] :=
  (dedup_paths_spec "/" ["/a", "/a/b", "/c"] (by decide)).2.2.2.2.2.2

/-- Counterexample to C2 as stated: an svn working copy nested inside a
discovered git repository IS reported as a separate root.  The walk only
prunes the `.git` marker directory itself, so it still descends into the
repository's other subdirectories, and `_dedup_paths` is applied to the
git list and the svn list separately, never across kinds. -/
theorem discover_cross_kind_nested_cex :
    discoverRepos "/" [("/r", .mk "r" (.cons (.mk "proj" (.cons (.mk ".git" .nil)
        (.cons (.mk "vendor" (.cons (.mk ".svn" .nil) .nil)) .nil))) .nil))] =
      (["/r/proj"], ["/r/proj/vendor"])
    ∧ descStartsWith "/r/proj/vendor" "/r/proj" = true := by
  decide

/-- C2 as amended: Repository Discovery never returns a repository path
that is a strict descendant of another returned path of the *same* kind
(each kind's found list goes through the Path Deduplicator); a repository
of one kind nested inside a discovered repository of the other kind is,
however, reported as a separate root. -/
theorem discover_no_same_kind_nesting (cwd : String) (roots : List (String × FSDir)) :
    (∀ p ∈ (discoverRepos cwd roots).1, ∀ q ∈ (discoverRepos cwd roots).1,
        ¬(p ≠ q ∧ descStartsWith p q = true))
    ∧ (∀ p ∈ (discoverRepos cwd roots).2, ∀ q ∈ (discoverRepos cwd roots).2,
        ¬(p ≠ q ∧ descStartsWith p q = true)) := by
  constructor
  · intro p hp q hq
    simp only [discoverRepos] at hp hq
    unfold dedupPaths at hp hq
    exact dropDesc_no_desc hp hq
  · intro p hp q hq
    simp only [discoverRepos] at hp hq
    unfold dedupPaths at hp hq
    exact dropDesc_no_desc hp hq

/-- Witness for C2 (amended) on a concrete tree with two git roots. -/
theorem discover_no_same_kind_nesting_witness :
    ¬("/r/a" ≠ "/r/b" ∧ descStartsWith "/r/a" "/r/b" = true) :=
  (discover_no_same_kind_nesting "/"
      [("/r", .mk "r" (.cons (.mk "a" (.cons (.mk ".git" .nil) .nil))
        (.cons (.mk "b" (.cons (.mk ".git" .nil) .nil)) .nil)))]).1
    "/r/a" (by decide) "/r/b" (by decide)

/-! ### `normpath` idempotence (for the Path Deduplicator fixed point) -/

theorem pySplit_ne_nil (sep : Char) (cs : List Char) : pySplit sep cs ≠ [] := by
  cases cs with
  | nil => simp [pySplit]
  | cons c t =>
    unfold pySplit
    split <;> simp

theorem pySplit_no_sep (sep : Char) (cs : List Char) :
    ∀ piece ∈ pySplit sep cs, sep ∉ piece := by
  induction cs with
  | nil =>
    intro piece hp
    simp [pySplit] at hp
    simp [hp]
  | cons c t ih =>
    intro piece hp
    unfold pySplit at hp
    split at hp
    · rcases List.mem_cons.mp hp with rfl | hp
      · simp
      · exact ih piece hp
    · rename_i hcs
      rcases List.mem_cons.mp hp with rfl | hp
      · intro hmem
        rcases List.mem_cons.mp hmem with rfl | hmem
        · exact hcs rfl
        · cases hsp : pySplit sep t with
          | nil => exact pySplit_ne_nil sep t hsp
          | cons h hs =>
            rw [hsp] at hmem
            exact ih h (hsp ▸ List.mem_cons_self h hs) hmem
      · cases hsp : pySplit sep t with
        | nil => exact absurd hsp (pySplit_ne_nil sep t)
        | cons hh hs =>
          rw [hsp] at hp
          exact ih piece (hsp ▸ List.mem_cons_of_mem hh hp)

theorem pySplit_cons (sep c : Char) (t : List Char) :
    pySplit sep (c :: t) =
      if c = sep then [] :: pySplit sep t
      else (c :: (pySplit sep t).headD []) :: (pySplit sep t).tail := by
  simp only [pySplit]

theorem pySplit_append_no_sep {sep : Char} {p : List Char} (hp : sep ∉ p)
    (t : List Char) :
    pySplit sep (p ++ t) =
      (p ++ (pySplit sep t).headD []) :: (pySplit sep t).tail := by
  induction p with
  | nil =>
    simp only [List.nil_append]
    cases hsp : pySplit sep t with
    | nil => exact absurd hsp (pySplit_ne_nil sep t)
    | cons h hs => simp
  | cons c p' ih =>
    have hc : ¬ c = sep := by
      intro he
      exact hp (he ▸ List.mem_cons_self c p')
    have hp' : sep ∉ p' := fun hmem => hp (List.mem_cons_of_mem c hmem)
    show pySplit sep (c :: (p' ++ t)) = _
    rw [pySplit_cons, if_neg hc, ih hp']
    simp

theorem pySplit_joinSl {nc : List (List Char)} (hne : nc ≠ [])
    (hcl : ∀ c ∈ nc, c ≠ [] ∧ '/' ∉ c) : pySplit '/' (joinSl nc) = nc := by
  induction nc with
  | nil => exact absurd rfl hne
  | cons c rest ih =>
    have hc := hcl c (List.mem_cons_self c rest)
    cases rest with
    | nil =>
      show pySplit '/' (joinSl [c]) = [c]
      have hj : joinSl [c] = c ++ [] := by simp [joinSl]
      rw [hj, pySplit_append_no_sep hc.2]
      simp [pySplit]
    | cons d rest' =>
      show pySplit '/' (c ++ '/' :: joinSl (d :: rest')) = c :: d :: rest'
      rw [pySplit_append_no_sep hc.2, pySplit_cons, if_pos rfl,
        ih (by simp) (fun z hz => hcl z (List.mem_cons_of_mem c hz))]
      simp

theorem pySplit_replicate_append (k : Nat) (rest : List Char) :
    pySplit '/' (List.replicate k '/' ++ rest) =
      List.replicate k [] ++ pySplit '/' rest := by
  induction k with
  | zero => simp
  | succ n ih =>
    show pySplit '/' ('/' :: (List.replicate n '/' ++ rest)) = _
    rw [pySplit_cons, if_pos rfl, ih]
    simp [List.replicate_succ]


/-- A component `posixpath.normpath` can leave in `new_comps` when the
path is absolute. -/
def cleanComp (c : List Char) : Prop :=
  c ≠ [] ∧ c ≠ ['.'] ∧ c ≠ ['.', '.'] ∧ '/' ∉ c

theorem normStep_clean {acc : List (List Char)} {c : List Char}
    (hacc : ∀ z ∈ acc, cleanComp z) (hsl : '/' ∉ c) :
    ∀ z ∈ normStep true acc c, cleanComp z := by
  intro z hz
  unfold normStep at hz
  split at hz
  · exact hacc z hz
  · split at hz
    · rename_i hskip hcond
      rcases List.mem_append.mp hz with hz | hz
      · exact hacc z hz
      · have hzc : z = c := by simpa using hz
        subst hzc
        push_neg at hskip
        rcases hcond with hcond | hcond | hcond
        · exact ⟨hskip.1, hskip.2, hcond, hsl⟩
        · exact absurd hcond.1 (by simp)
        · rcases List.getLast?_eq_getLast _ hcond.1 ▸ hcond.2 with hlast
          have := hacc _ (List.getLast_mem hcond.1)
          rw [Option.some_inj.mp hlast] at this
          exact absurd rfl this.2.2.1
    · split at hz
      · exact hacc z ((List.dropLast_sublist acc).mem hz)
      · exact hacc z hz

theorem normFold_clean {comps : List (List Char)} {acc : List (List Char)}
    (hacc : ∀ z ∈ acc, cleanComp z)
    (hcomps : ∀ c ∈ comps, '/' ∉ c) :
    ∀ z ∈ List.foldl (normStep true) acc comps, cleanComp z := by
  induction comps generalizing acc with
  | nil => exact hacc
  | cons c cs ih =>
    show ∀ z ∈ List.foldl (normStep true) (normStep true acc c) cs, cleanComp z
    exact ih (normStep_clean hacc (hcomps c (List.mem_cons_self c cs)))
      (fun z hz => hcomps z (List.mem_cons_of_mem c hz))

theorem normFold_skip_empty (b : Bool) (acc : List (List Char)) (k : Nat)
    (rest : List (List Char)) :
    List.foldl (normStep b) acc (List.replicate k [] ++ rest) =
      List.foldl (normStep b) acc rest := by
  induction k generalizing acc with
  | zero => simp
  | succ n ih =>
    have hstep : normStep b acc [] = acc := by
      unfold normStep
      rw [if_pos (Or.inl rfl)]
    simp only [List.replicate_succ, List.cons_append, List.foldl_cons, hstep]
    exact ih acc

theorem normFold_clean_id {comps : List (List Char)}
    (h : ∀ c ∈ comps, cleanComp c) (acc : List (List Char)) :
    List.foldl (normStep true) acc comps = acc ++ comps := by
  induction comps generalizing acc with
  | nil => simp
  | cons c cs ih =>
    have hc := h c (List.mem_cons_self c cs)
    have hstep : normStep true acc c = acc ++ [c] := by
      unfold normStep
      rw [if_neg (by simp [hc.1, hc.2.1]), if_pos (Or.inl hc.2.2.1)]
    simp only [List.foldl_cons, hstep]
    rw [ih (fun z hz => h z (List.mem_cons_of_mem c hz))]
    simp

theorem joinSl_headD {c : List Char} {rest : List (List Char)} (hc : c ≠ []) :
    (joinSl (c :: rest)).headD ' ' = c.headD ' ' := by
  cases rest with
  | nil => rfl
  | cons d rest' =>
    show (c ++ '/' :: joinSl (d :: rest')).headD ' ' = c.headD ' '
    exact headD_append_left hc

theorem normPathL_abs_shape {cs : List Char} (h : cs.headD ' ' = '/') :
    (∀ c ∈ normComps cs, cleanComp c) ∧
      normPathL cs =
        List.replicate (leadSlashes cs) '/' ++ joinSl (normComps cs) := by
  have hne : cs ≠ [] := by intro he; subst he; simp at h
  have hk := leadSlashes_bounds h
  constructor
  · unfold normComps
    have hb : decide (0 < leadSlashes cs) = true := by
      rcases hk with hk | hk <;> simp [hk]
    rw [hb]
    exact normFold_clean (by simp) (pySplit_no_sep '/' cs)
  · have hnn : List.replicate (leadSlashes cs) '/' ++ joinSl (normComps cs) ≠ [] := by
      rcases hk with hk | hk <;> simp [hk, List.replicate_succ]
    unfold normPathL
    rw [if_neg hne, if_neg hnn]

theorem normPathL_idem_abs {cs : List Char} (h : cs.headD ' ' = '/') :
    normPathL (normPathL cs) = normPathL cs := by
  have hk := leadSlashes_bounds h
  obtain ⟨hcl, hout⟩ := normPathL_abs_shape h
  set k := leadSlashes cs with hkdef
  set nc := normComps cs with hncdef
  rw [hout]
  by_cases hnc : nc = []
  · rw [hnc]
    rcases hk with hk | hk <;> rw [hk] <;> decide
  · have hb : (joinSl nc).headD ' ' ≠ '/' := by
      cases hcc : nc with
      | nil => exact absurd hcc hnc
      | cons c rest =>
        have hc := hcl c (hcc ▸ List.mem_cons_self c rest)
        rw [joinSl_headD hc.1]
        cases c with
        | nil => exact absurd rfl hc.1
        | cons a t =>
          intro ha
          simp at ha
          exact hc.2.2.2 (ha ▸ List.mem_cons_self a t)
    have hb' : ¬ (joinSl nc).head?.getD ' ' = '/' := by simpa using hb
    have hls : leadSlashes (List.replicate k '/' ++ joinSl nc) = k := by
      rcases hk with hk | hk <;> rw [hk] <;>
        simp [leadSlashes, List.replicate_succ, hb']
    have hsplit : pySplit '/' (List.replicate k '/' ++ joinSl nc) =
        List.replicate k [] ++ nc := by
      rw [pySplit_replicate_append,
        pySplit_joinSl hnc (fun c hc' => ⟨(hcl c hc').1, (hcl c hc').2.2.2⟩)]
    have hcomps : normComps (List.replicate k '/' ++ joinSl nc) = nc := by
      unfold normComps
      rw [hls, hsplit]
      have hb1 : decide (0 < k) = true := by
        rcases hk with hk | hk <;> simp [hk]
      rw [hb1, normFold_skip_empty, normFold_clean_id hcl]
      simp
    have hne' : List.replicate k '/' ++ joinSl nc ≠ [] := by
      rcases hk with hk | hk <;> simp [hk, List.replicate_succ]
    unfold normPathL
    rw [if_neg hne', hls, hcomps, if_neg hne']

theorem abspathL_eq_norm (cwd p : List Char) (h : cwd.headD ' ' = '/') :
    ∃ y, y.headD ' ' = '/' ∧ abspathL cwd p = normPathL y := by
  unfold abspathL
  split
  · rename_i hp
    exact ⟨p, hp, rfl⟩
  · exact ⟨joinL cwd p, joinL_abs_head h, rfl⟩

/-- `os.path.abspath` is idempotent (given an absolute working
directory, as the OS guarantees). -/
theorem abspath_idem (cwd p : String) (h : cwd.toList.headD ' ' = '/') :
    abspath cwd (abspath cwd p) = abspath cwd p := by
  rcases abspathL_eq_norm cwd.toList p.toList h with ⟨y, hy, he⟩
  show (⟨abspathL cwd.toList (abspath cwd p).toList⟩ : String) = abspath cwd p
  have h1 : (abspath cwd p).toList = abspathL cwd.toList p.toList := rfl
  rw [h1, he]
  have h2 : abspathL cwd.toList (normPathL y) = normPathL (normPathL y) := by
    unfold abspathL
    rw [if_pos (normPathL_abs_head hy)]
  rw [h2, normPathL_idem_abs hy]
  show (⟨normPathL y⟩ : String) = ⟨abspathL cwd.toList p.toList⟩
  rw [he]

/-- C10: the Path Deduplicator is idempotent — its output (absolute,
normalized, duplicate-free, sorted, ancestor-closed) is a fixed point of
the deduplicate/flatten operation. -/
theorem dedup_paths_idempotent (cwd : String) (l : List String)
    (h : cwd.toList.headD ' ' = '/') :
    dedupPaths cwd (dedupPaths cwd l) = dedupPaths cwd l := by
  have hmemsort : ∀ z, z ∈ isortBy strLe (dedupAbs cwd [] l) ↔
      z ∈ dedupAbs cwd [] l :=
    fun z => (isortBy_perm strLe (dedupAbs cwd [] l)).mem_iff
  have hfix : ∀ p ∈ dedupPaths cwd l, abspath cwd p = p := by
    intro p hp
    have hp2 := (hmemsort p).mp ((dropDesc_sublist _).mem hp)
    rcases dedupAbs_mem_image hp2 with ⟨x, _, rfl⟩
    exact abspath_idem cwd x h
  have hnd : (dedupPaths cwd l).Nodup :=
    ((isortBy_nodup (dedupAbs_nodup cwd [] l))).sublist (dropDesc_sublist _)
  have hpair : (dedupPaths cwd l).Pairwise (fun a b => strLe a b = true) :=
    (isortBy_pairwise strLe_total strLe_trans _).sublist (dropDesc_sublist _)
  have hnodesc : ∀ p ∈ dedupPaths cwd l, ∀ q ∈ dedupPaths cwd l,
      ¬(p ≠ q ∧ descStartsWith p q = true) :=
    fun p hp q hq => dropDesc_no_desc hp hq
  show dropDesc (isortBy strLe (dedupAbs cwd [] (dedupPaths cwd l))) =
    dedupPaths cwd l
  rw [dedupAbs_eq_self hfix hnd (by simp)]
  rw [isortBy_eq_of_pairwise hpair]
  exact dropDesc_eq_self hnodesc

/-- Witness for C10 at a mixed absolute/relative/overlapping input. -/
theorem dedup_paths_idempotent_witness :
    dedupPaths "/" (dedupPaths "/" ["/a", "x/y", "/a/b", "/a"]) =
      dedupPaths "/" ["/a", "x/y", "/a/b", "/a"] :=
  dedup_paths_idempotent "/" ["/a", "x/y", "/a/b", "/a"] (by decide)
